import Mathlib

/-!
Verification development for the Labs-Pulse monitoring pipeline.

The definitions below are a shallow embedding of the backend source:
`backend/src/lib/time.js`, `backend/src/lib/accumulator.js`,
`backend/src/lib/poller.js`, `backend/src/lib/persistence.js`,
`backend/src/lib/scheduler.js`, `backend/src/api/routes.js` and the
`main` startup file.  Timestamps are UTC epoch milliseconds, modelled as
`Nat` (the system only ever handles non-negative instants).  JavaScript
month keys `"YYYY-MM"` are modelled by the month index counted from
January 1970 (the mapping between the two is injective, so shard
identity is preserved).  File contents are modelled as parsed snapshot
lists; an absent file is `none`.
-/

namespace LabsPulse

/-- Embeds `time.js`: bucket width is 60s in minute-debug mode, 3600s otherwise. -/
def bucketSizeMs (minuteMode : Bool) : Nat :=
  if minuteMode then 60000 else 3600000

/-- Embeds `hourBucketUtcMs` from `time.js`: `Math.floor(ts / size) * size`. -/
def hourBucketUtcMs (minuteMode : Bool) (tsMs : Nat) : Nat :=
  tsMs / bucketSizeMs minuteMode * bucketSizeMs minuteMode

/-- Embeds `startOfNextUtcHourMs` from `time.js`: `Math.ceil(now / size) * size`. -/
def startOfNextUtcHourMs (minuteMode : Bool) (nowMs : Nat) : Nat :=
  (nowMs + bucketSizeMs minuteMode - 1) / bucketSizeMs minuteMode * bucketSizeMs minuteMode

/-- Gregorian leap-year rule, as implemented by the JavaScript `Date` UTC calendar. -/
def isLeapYear (y : Nat) : Bool :=
  (y % 4 == 0 && y % 100 != 0) || y % 400 == 0

/-- Number of days in the month with index `i`, where index 0 is January 1970
(the JavaScript `Date` UTC proleptic Gregorian calendar). -/
def daysInMonthIdx (i : Nat) : Nat :=
  let y := 1970 + i / 12
  let m := i % 12
  if m = 1 then (if isLeapYear y then 29 else 28)
  else if m = 3 ∨ m = 5 ∨ m = 8 ∨ m = 10 then 30
  else 31

def msPerDay : Nat := 86400000

/-- Epoch milliseconds of the first instant of the month with index `i`
(index 0 = January 1970, the epoch itself). -/
def monthStartMs : Nat → Nat
  | 0 => 0
  | i + 1 => monthStartMs i + msPerDay * daysInMonthIdx i

theorem daysInMonthIdx_pos (i : Nat) : 0 < daysInMonthIdx i := by
  unfold daysInMonthIdx
  dsimp only
  split
  · split <;> norm_num
  · split <;> norm_num

theorem monthStartMs_lt_succ (i : Nat) : monthStartMs i < monthStartMs (i + 1) := by
  have h := daysInMonthIdx_pos i
  have : 0 < msPerDay * daysInMonthIdx i := by
    have : 0 < msPerDay := by norm_num [msPerDay]
    exact Nat.mul_pos this h
  simp only [monthStartMs]
  omega

theorem monthStartMs_strictMono : StrictMono monthStartMs :=
  strictMono_nat_of_lt_succ monthStartMs_lt_succ

theorem monthStartMs_mono {i j : Nat} (h : i ≤ j) : monthStartMs i ≤ monthStartMs j :=
  monthStartMs_strictMono.monotone h

/-- Helper for `msToMonthIdx`: starting from month `m` (whose start is at or
before `t`), walk forward to the month containing `t`. -/
def msToMonthIdxAux (t : Nat) (m : Nat) : Nat :=
  if monthStartMs (m + 1) ≤ t then msToMonthIdxAux t (m + 1) else m
termination_by t + 1 - monthStartMs m
decreasing_by
  have h1 := monthStartMs_lt_succ m
  omega

/-- Embeds `monthKeyFromUtcMs` from `time.js`, as a month index: the UTC
year-month containing instant `t`. -/
def msToMonthIdx (t : Nat) : Nat :=
  msToMonthIdxAux t 0

theorem msToMonthIdxAux_spec (t m : Nat) (h : monthStartMs m ≤ t) :
    monthStartMs (msToMonthIdxAux t m) ≤ t ∧ t < monthStartMs (msToMonthIdxAux t m + 1) := by
  rw [msToMonthIdxAux]
  split
  · exact msToMonthIdxAux_spec t (m + 1) (by assumption)
  · exact ⟨h, by omega⟩
termination_by t + 1 - monthStartMs m
decreasing_by
  have h1 := monthStartMs_lt_succ m
  omega

theorem msToMonthIdx_spec (t : Nat) :
    monthStartMs (msToMonthIdx t) ≤ t ∧ t < monthStartMs (msToMonthIdx t + 1) :=
  msToMonthIdxAux_spec t 0 (by simp [monthStartMs])

/-- Helper for `getMonthKeysBetween`: collect consecutive month indices starting
at `m` whose month start is at or before `toMs` (the JavaScript loop
`while (currentDate <= toDate)`). -/
def monthKeysFromAux (toMs : Nat) (m : Nat) : List Nat :=
  if monthStartMs m ≤ toMs then m :: monthKeysFromAux toMs (m + 1) else []
termination_by toMs + 1 - monthStartMs m
decreasing_by
  have h1 := monthStartMs_lt_succ m
  omega

/-- Embeds `getMonthKeysBetween` from `time.js`: month keys from the month of
`fromMs`, stepping one month at a time while the month start is at or before
`toMs`. -/
def getMonthKeysBetween (fromMs toMs : Nat) : List Nat :=
  monthKeysFromAux toMs (msToMonthIdx fromMs)

theorem mem_monthKeysFromAux (toMs : Nat) (k m : Nat) :
    m ∈ monthKeysFromAux toMs k ↔ (k ≤ m ∧ monthStartMs m ≤ toMs) := by
  rw [monthKeysFromAux]
  split
  · rename_i h
    rw [List.mem_cons, mem_monthKeysFromAux toMs (k + 1) m]
    constructor
    · rintro (rfl | ⟨h1, h2⟩)
      · exact ⟨Nat.le_refl _, h⟩
      · exact ⟨Nat.le_of_succ_le h1, h2⟩
    · rintro ⟨h1, h2⟩
      rcases Nat.eq_or_lt_of_le h1 with heq | hlt
      · exact Or.inl heq.symm
      · exact Or.inr ⟨hlt, h2⟩
  · rename_i h
    simp only [List.not_mem_nil, false_iff]
    rintro ⟨h1, h2⟩
    exact h (Nat.le_trans (monthStartMs_mono h1) h2)
termination_by toMs + 1 - monthStartMs k
decreasing_by
  have h1 := monthStartMs_lt_succ k
  omega

theorem mem_getMonthKeysBetween (fromMs toMs m : Nat) :
    m ∈ getMonthKeysBetween fromMs toMs ↔
      (monthStartMs m ≤ toMs ∧ fromMs < monthStartMs (m + 1)) := by
  rw [getMonthKeysBetween, mem_monthKeysFromAux]
  have hs := msToMonthIdx_spec fromMs
  constructor
  · rintro ⟨h1, h2⟩
    refine ⟨h2, Nat.lt_of_lt_of_le hs.2 ?_⟩
    exact monthStartMs_mono (Nat.succ_le_succ h1)
  · rintro ⟨h1, h2⟩
    refine ⟨?_, h1⟩
    by_contra hlt
    push_neg at hlt
    have : monthStartMs (m + 1) ≤ monthStartMs (msToMonthIdx fromMs) :=
      monthStartMs_mono (Nat.succ_le_of_lt hlt)
    exact Nat.lt_irrefl _ (Nat.lt_of_lt_of_le h2 (Nat.le_trans this hs.1))

theorem sorted_monthKeysFromAux (toMs k : Nat) :
    List.Pairwise (· < ·) (monthKeysFromAux toMs k) := by
  rw [monthKeysFromAux]
  split
  · refine List.Pairwise.cons ?_ (sorted_monthKeysFromAux toMs (k + 1))
    intro b hb
    exact Nat.lt_of_succ_le ((mem_monthKeysFromAux toMs (k + 1) b).mp hb).1
  · exact List.Pairwise.nil
termination_by toMs + 1 - monthStartMs k
decreasing_by
  have h1 := monthStartMs_lt_succ k
  omega

/-- Modelled from the spec: `monthsBetween(from, to)` is "the ordered set of
month keys whose calendar month intersects `[from, to]`".  The month with
index `m` spans `[monthStartMs m, monthStartMs (m+1))`, so it intersects the
closed range iff it starts at or before `to` and ends after `from`. -/
def monthsIntersecting (fromMs toMs : Nat) : List Nat :=
  (List.range (msToMonthIdx toMs + 1)).filter
    (fun m => decide (monthStartMs m ≤ toMs ∧ fromMs < monthStartMs (m + 1)))

theorem mem_monthsIntersecting (fromMs toMs m : Nat) :
    m ∈ monthsIntersecting fromMs toMs ↔
      (monthStartMs m ≤ toMs ∧ fromMs < monthStartMs (m + 1)) := by
  unfold monthsIntersecting
  rw [List.mem_filter, List.mem_range]
  constructor
  · rintro ⟨_, h2⟩
    exact of_decide_eq_true h2
  · intro h
    refine ⟨?_, decide_eq_true h⟩
    by_contra hge
    push_neg at hge
    have hm : msToMonthIdx toMs + 1 ≤ m := hge
    have := monthStartMs_mono hm
    have hspec := msToMonthIdx_spec toMs
    exact Nat.lt_irrefl _ (Nat.lt_of_lt_of_le hspec.2 (Nat.le_trans this h.1))

theorem monthsIntersecting_sorted (fromMs toMs : Nat) :
    List.Pairwise (· < ·) (monthsIntersecting fromMs toMs) :=
  List.Pairwise.sublist (List.filter_sublist _) (List.pairwise_lt_range _)

/-- The months the persistence layer enumerates for a range read are exactly
the months whose calendar interval intersects the requested range. -/
theorem getMonthKeysBetween_eq_monthsIntersecting (fromMs toMs : Nat) :
    getMonthKeysBetween fromMs toMs = monthsIntersecting fromMs toMs := by
  have h1 : List.Pairwise (· < ·) (getMonthKeysBetween fromMs toMs) :=
    sorted_monthKeysFromAux toMs (msToMonthIdx fromMs)
  have h2 := monthsIntersecting_sorted fromMs toMs
  have hmem : ∀ a, a ∈ getMonthKeysBetween fromMs toMs ↔ a ∈ monthsIntersecting fromMs toMs := by
    intro a
    rw [mem_getMonthKeysBetween fromMs toMs a, mem_monthsIntersecting]
  have hn1 : (getMonthKeysBetween fromMs toMs).Nodup :=
    h1.imp (fun hab => Nat.ne_of_lt hab)
  have hn2 : (monthsIntersecting fromMs toMs).Nodup :=
    h2.imp (fun hab => Nat.ne_of_lt hab)
  have hperm : (getMonthKeysBetween fromMs toMs).Perm (monthsIntersecting fromMs toMs) :=
    (List.perm_ext_iff_of_nodup hn1 hn2).mpr hmem
  exact List.eq_of_perm_of_sorted hperm
    (h1.imp (fun hab => Nat.le_of_lt hab))
    (h2.imp (fun hab => Nat.le_of_lt hab))

/-- One persisted snapshot record `{hour_utc_ms, ping_ms}` (persistence.js). -/
structure HourSnap where
  hour_utc_ms : Nat
  ping_ms : Nat
deriving DecidableEq, Repr

/-- The ascending-by-bucket-start comparator used by the shard sort
(`(a, b) => a.hour_utc_ms - b.hour_utc_ms`). -/
def snapLE (a b : HourSnap) : Bool :=
  decide (a.hour_utc_ms ≤ b.hour_utc_ms)

/-- The in-place update step of `writeHourlySnapshot` in `persistence.js`:
replace the entry found by `findIndex(item => item.hour_utc_ms === hourUtcMs)`,
else push the new snapshot at the end. -/
def upsertEntry (shard : List HourSnap) (hourUtcMs pingMs : Nat) : List HourSnap :=
  let newSnapshot : HourSnap := ⟨hourUtcMs, pingMs⟩
  match shard.findIdx? (fun item => item.hour_utc_ms == hourUtcMs) with
  | some i => shard.set i newSnapshot
  | none => shard ++ [newSnapshot]

/-- Embeds the shard-content transformation of `writeHourlySnapshot` in
`persistence.js`: upsert the entry for the bucket, then re-sort ascending by
`hour_utc_ms`.  (The temp-file-then-rename step is the durability mechanism
and does not change the committed content.) -/
def upsertShard (shard : List HourSnap) (hourUtcMs pingMs : Nat) : List HourSnap :=
  (upsertEntry shard hourUtcMs pingMs).mergeSort snapLE

/-- The durable store: one optional shard (parsed snapshot list) per
(service id, month index).  `none` is an absent file. -/
def Store := String → Nat → Option (List HourSnap)

def emptyStore : Store := fun _ _ => none

/-- Embeds `writeHourlySnapshot(serviceId, hourUtcMs, pingMs)`: resolve the
shard for `(serviceId, monthKey(hourUtcMs))`, treat an absent or unreadable
file as empty, upsert, sort, and atomically replace that one file. -/
def writeHourlySnapshot (store : Store) (serviceId : String) (hourUtcMs pingMs : Nat) : Store :=
  let mk := msToMonthIdx hourUtcMs
  fun sid m =>
    if sid = serviceId ∧ m = mk then
      some (upsertShard ((store serviceId mk).getD []) hourUtcMs pingMs)
    else store sid m

/-- Retention cutoff used by `pruneRetention`:
`now - retentionDays * 24 * 60 * 60 * 1000`. -/
def cutoffOf (retentionDays nowUtcMs : Nat) : Nat :=
  nowUtcMs - retentionDays * 24 * 60 * 60 * 1000

/-- What `pruneRetention` does to a single shard file. -/
inductive PruneAction where
  | deleted
  | rewritten (newData : List HourSnap)
  | untouched
deriving DecidableEq, Repr

/-- Embeds the per-file body of `pruneRetention` in `persistence.js`: if the
last millisecond of the shard's month (`endOfMonth`, 23:59:59.999) is before
the cutoff, delete the file; otherwise keep only entries with
`hour_utc_ms >= cutoff`, deleting the file when nothing remains and rewriting
it only when the filtered length differs from the original length. -/
def pruneShardAction (cutoffMs monthIdx : Nat) (data : List HourSnap) : PruneAction :=
  if monthStartMs (monthIdx + 1) - 1 < cutoffMs then .deleted
  else
    let filteredData := data.filter (fun entry => decide (cutoffMs ≤ entry.hour_utc_ms))
    if filteredData.length = 0 then .deleted
    else if filteredData.length ≠ data.length then .rewritten filteredData
    else .untouched

/-- The file content resulting from `pruneShardAction` (`none` = deleted). -/
def pruneShardContent (cutoffMs monthIdx : Nat) (data : List HourSnap) : Option (List HourSnap) :=
  match pruneShardAction cutoffMs monthIdx data with
  | .deleted => none
  | .rewritten d => some d
  | .untouched => some data

/-- Embeds `pruneRetention(retentionDays, nowUtcMs)`: every existing shard
file is pruned independently against the cutoff; absent files stay absent. -/
def pruneRetention (retentionDays nowUtcMs : Nat) (store : Store) : Store :=
  fun sid m => (store sid m).bind (pruneShardContent (cutoffOf retentionDays nowUtcMs) m)

/-- Range predicate of `readSnapshots`:
`entry.hour_utc_ms >= fromUtcMs && entry.hour_utc_ms <= toUtcMs`. -/
def inRange (fromMs toMs : Nat) (s : HourSnap) : Bool :=
  decide (fromMs ≤ s.hour_utc_ms) && decide (s.hour_utc_ms ≤ toMs)

/-- Embeds the per-service body of `readSnapshots` in `persistence.js`: read
each shard whose month key is enumerated by `getMonthKeysBetween`, filter each
to the requested range, concatenate, sort ascending, and apply
`if (limit && result.length > limit) slice(0, limit)`. -/
def readSnapshotsForService (store : Store) (serviceId : String) (fromMs toMs : Nat)
    (limit : Option Nat) : List HourSnap :=
  let collected := (getMonthKeysBetween fromMs toMs).flatMap
    (fun mk => ((store serviceId mk).getD []).filter (inRange fromMs toMs))
  let sorted := collected.mergeSort snapLE
  match limit with
  | some l => if l ≠ 0 ∧ l < sorted.length then sorted.take l else sorted
  | none => sorted

/-- Embeds `readSnapshots(serviceIds, fromUtcMs, toUtcMs, limit)`: one result
list per requested service id. -/
def readSnapshots (store : Store) (serviceIds : List String) (fromMs toMs : Nat)
    (limit : Option Nat) : List (String × List HourSnap) :=
  serviceIds.map (fun sid => (sid, readSnapshotsForService store sid fromMs toMs limit))

/-- One in-memory per-(service, bucket) aggregate (`accumulator.js`). -/
structure HourAgg where
  samples_total : Nat
  samples_ok : Nat
  success_latencies : List Nat
  recent_results : List Bool
  last_check_ms : Option Nat
deriving DecidableEq, Repr

/-- The freshly initialised aggregate of `recordSample`. -/
def initAgg : HourAgg :=
  { samples_total := 0, samples_ok := 0, success_latencies := []
    recent_results := [], last_check_ms := none }

/-- The accumulator's in-memory map, keyed by service id and bucket start. -/
def AccState := String → Nat → Option HourAgg

def emptyAcc : AccState := fun _ _ => none

/-- Embeds `recordSample(serviceId, timestampMs, ok, latencyMs)` from
`accumulator.js`: resolve the bucket, create the aggregate if absent, bump the
counters, push the latency on success, push the outcome into the
recent-results ring (shifting when it exceeds 10), and update the last-check
timestamp.  On failure the caller passes `null` for the latency; the latency
argument is unused in that case. -/
def recordSample (minuteMode : Bool) (acc : AccState) (serviceId : String)
    (timestampMs : Nat) (ok : Bool) (latencyMs : Nat) : AccState :=
  let bucket := hourBucketUtcMs minuteMode timestampMs
  let a0 := (acc serviceId bucket).getD initAgg
  let pushed := a0.recent_results ++ [ok]
  let a1 : HourAgg :=
    { samples_total := a0.samples_total + 1
      samples_ok := a0.samples_ok + (if ok then 1 else 0)
      success_latencies := a0.success_latencies ++ (if ok then [latencyMs] else [])
      recent_results := if 10 < pushed.length then pushed.drop 1 else pushed
      last_check_ms := some timestampMs }
  fun sid h => if sid = serviceId ∧ h = bucket then some a1 else acc sid h

/-- The fields `getAndResetForHour` copies into its result: `samples_total`,
`samples_ok` and `success_latencies` only. -/
structure DrainedAgg where
  samples_total : Nat
  samples_ok : Nat
  success_latencies : List Nat
deriving DecidableEq, Repr

def drainCopy (a : HourAgg) : DrainedAgg :=
  { samples_total := a.samples_total, samples_ok := a.samples_ok
    success_latencies := a.success_latencies }

/-- Embeds `getAndResetForHour(hourUtcMs)` from `accumulator.js`: for every
service holding data for exactly that bucket, copy out `samples_total`,
`samples_ok` and `success_latencies`, and delete the bucket's entry. -/
def getAndResetForHour (acc : AccState) (hourUtcMs : Nat) :
    (String → Option DrainedAgg) × AccState :=
  (fun sid => (acc sid hourUtcMs).map drainCopy,
   fun sid h => if h = hourUtcMs then none else acc sid h)

/-- Embeds `clearHour(hourUtcMs)`: delete the bucket's entry for every service. -/
def clearHour (acc : AccState) (hourUtcMs : Nat) : AccState :=
  fun sid h => if h = hourUtcMs then none else acc sid h

/-- Embeds `getCurrentHourData(serviceId, hourUtcMs)`: a non-destructive copy
of the full in-progress aggregate (all five fields), or `null`. -/
def getCurrentHourData (acc : AccState) (serviceId : String) (hourUtcMs : Nat) :
    Option HourAgg :=
  acc serviceId hourUtcMs

/-- Embeds the median computation shared by the finalization callback
(`main`, part of the startup file) and `calculatePingMs` (`routes.js`): sort
the latencies ascending; for an even count take
`Math.round((mid1 + mid2) / 2)` (for natural numbers this is
`(mid1 + mid2 + 1) / 2` with floor division, since `Math.round` rounds the
half case up), for an odd count take the middle element. -/
def medianRoundedMs (latencies : List Nat) : Nat :=
  let sorted := latencies.mergeSort (fun a b => decide (a ≤ b))
  let len := sorted.length
  if len % 2 = 0 then (sorted.getD (len / 2 - 1) 0 + sorted.getD (len / 2) 0 + 1) / 2
  else sorted.getD (len / 2) 0

/-- Embeds the `recent_results.slice(-2)` check of `calculatePingMs` in
`routes.js`: true when the ring has at least two entries and the two most
recent are both failures. -/
def lastTwoFailed (recent : List Bool) : Bool :=
  match recent.drop (recent.length - 2) with
  | [a, b] => !a && !b
  | _ => false

/-- Embeds `calculatePingMs(data)` from `routes.js` (used by both `/health`
and the live datapoint of `/snapshots`): 0 when there is no data or no
successful sample, 0 when the two most recent outcomes were both failures,
else the median of the successful latencies. -/
def calculatePingMs (data : Option HourAgg) : Nat :=
  match data with
  | none => 0
  | some d =>
    if d.samples_ok = 0 then 0
    else if lastTwoFailed d.recent_results then 0
    else medianRoundedMs d.success_latencies

/-- Per-service configuration (config.js), restricted to the fields the core
reads. -/
structure ServiceCfg where
  id : String
  timeout_ms : Nat
  slow_threshold_ms : Nat
  retries : Nat
deriving DecidableEq, Repr

/-- The per-service ping computed by the finalization callback in `main`:
0 when the drained data is absent or has no successful sample, else the
median of the drained successful latencies. -/
def snapshotPingForService (drained : Option DrainedAgg) : Nat :=
  match drained with
  | none => 0
  | some d => if 0 < d.samples_ok then medianRoundedMs d.success_latencies else 0

/-- Embeds the scheduler's `onHour` callback from `main`: drain the completed
bucket from the accumulator, write one snapshot per configured service (ping 0
without data or successes, median otherwise), then run retention pruning
against the current time. -/
def onHourCallback (services : List ServiceCfg) (retentionDays nowUtcMs : Nat)
    (acc : AccState) (store : Store) (completedHourUtcMs : Nat) : AccState × Store :=
  let drained := getAndResetForHour acc completedHourUtcMs
  let accumulatorData := drained.1
  let store' := services.foldl
    (fun st svc =>
      writeHourlySnapshot st svc.id completedHourUtcMs
        (snapshotPingForService (accumulatorData svc.id)))
    store
  (drained.2, pruneRetention retentionDays nowUtcMs store')

/-- The scheduler's guard state (`scheduler.js`): the last completed bucket
whose finalization ran to completion, and the bucket currently being
finalized. -/
structure SchedState where
  lastEmitted : Option Nat
  runningBoundary : Option Nat
deriving DecidableEq, Repr

/-- Embeds one timer firing of `startScheduler`, with `completedHour` the
newly computed completed bucket (`nextBoundary - bucketSize`).  When it equals
the last emitted bucket or the bucket currently being finalized, the firing
only reschedules (returns `false`); otherwise the callback is invoked and —
since the code awaits it to completion in `finally` before rescheduling, so no
further firing can observe the intermediate state — the post-state has
`lastEmitted` updated and `runningBoundary` cleared. -/
def schedFire (st : SchedState) (completedHour : Nat) : SchedState × Bool :=
  if st.lastEmitted = some completedHour ∨ st.runningBoundary = some completedHour then
    (st, false)
  else
    ({ lastEmitted := some completedHour, runningBoundary := none }, true)

/-- Runs the scheduler over a sequence of timer firings (each carrying its
computed completed bucket), collecting the buckets for which the finalization
callback was actually invoked. -/
def schedRunAux (st : SchedState) : List Nat → SchedState × List Nat
  | [] => (st, [])
  | h :: rest =>
    let r := schedFire st h
    let tail := schedRunAux r.1 rest
    (tail.1, (if r.2 then [h] else []) ++ tail.2)

def schedRun (fires : List Nat) : SchedState × List Nat :=
  schedRunAux { lastEmitted := none, runningBoundary := none } fires

/-- One recorded poller sample: success flag and the latency (absent on
failure, where the code records `null`). -/
def PollSample := Bool × Option Nat
deriving instance DecidableEq, Repr for PollSample

/-- Outcome of one HTTP attempt in `poller.js`: a 2xx response completing
within the timeout (with its measured latency), a completed response with a
non-2xx status code, or a connection error / timeout (the `'error'` and
`'timeout'` events). -/
inductive AttemptResult where
  | success (latencyMs : Nat)
  | httpFailure
  | connFailure
deriving DecidableEq, Repr

/-- Embeds `runAttempt` from `poller.js` for one service in one tick, as a
function of the environment: `env k` is the outcome of attempt number `k`.
The code increments `attempt` on entry and records exactly one sample per
attempt.  A 2xx response records one success sample in the `res.on('end')`
handler; a completed non-2xx response records one failure sample in the same
handler, which schedules no retry; only the `'error'` and `'timeout'`
handlers schedule a retry, and only while
`attempt <= service.retries && attempt <= 3` (retries within a tick are
sequential). -/
def runAttempt (retries : Nat) (env : Nat → AttemptResult) (attempt : Nat) : List PollSample :=
  match env attempt with
  | .success lat => [(true, some lat)]
  | .httpFailure => [(false, none)]
  | .connFailure =>
    (false, none) ::
      (if attempt ≤ retries ∧ attempt ≤ 3 then runAttempt retries env (attempt + 1)
       else [])
termination_by 4 - attempt
decreasing_by
  rename_i h
  omega

/-- All samples one service records in one poll tick (first attempt has
`attempt = 1`). -/
def pollTickSamples (retries : Nat) (env : Nat → AttemptResult) : List PollSample :=
  runAttempt retries env 1

/-- A client or server error surfaced by the API (`status` is the HTTP code). -/
structure ApiError where
  status : Nat
  message : String
deriving DecidableEq, Repr

def errStatus {α : Type} : Except ApiError α → Option Nat
  | .error e => some e.status
  | .ok _ => none

/-- Embeds the `GET /snapshots` handler of `routes.js`, from the point where
the query parameters have been parsed (`ids` is the comma-split service list,
`limitValue` the parsed optional limit; `parseInt` string handling is outside
the model).  The checks run in source order: `from <= to`, positive limit,
ids present in the config, then the 168-hour bucket-count cap — and only then
is the persistence read performed and the live datapoint appended.  The
returned flag records whether `readSnapshots` was reached.  The decorative
`last_check_ms` field of live datapoints is not modelled. -/
def snapshotsHandler (minuteMode : Bool) (validIds : List String) (acc : AccState)
    (store : Store) (nowMs : Nat) (ids : List String) (fromMs toMs : Nat)
    (limitValue : Option Nat) :
    Except ApiError (List (String × List HourSnap)) × Bool :=
  if toMs < fromMs then
    (.error ⟨400, "from_utc_ms must be less than or equal to to_utc_ms"⟩, false)
  else if limitValue = some 0 then
    (.error ⟨400, "limit must be a positive integer"⟩, false)
  else if ids.filter (fun i => !(validIds.contains i)) ≠ [] then
    (.error ⟨400, "Invalid service_id(s)"⟩, false)
  else
    let maxBuckets := 168 * (if bucketSizeMs minuteMode = 60000 then 60 else 1)
    let requestedBuckets := (toMs - fromMs) / bucketSizeMs minuteMode + 1
    let effectiveLimit := match limitValue with
      | some l => min l maxBuckets
      | none => maxBuckets
    if maxBuckets < requestedBuckets then
      (.error ⟨400, "Requested time window exceeds maximum of 168 hours per service"⟩, false)
    else
      let currentBucket := hourBucketUtcMs minuteMode nowMs
      (.ok (ids.map (fun sid =>
        let hist := readSnapshotsForService store sid fromMs toMs (some effectiveLimit)
        let live := calculatePingMs (getCurrentHourData acc sid currentBucket)
        let merged :=
          if fromMs ≤ currentBucket ∧ currentBucket ≤ toMs ∧
              hist.all (fun s => s.hour_utc_ms ≠ currentBucket) then
            hist ++ [⟨currentBucket, live⟩]
          else hist
        (sid, merged.mergeSort snapLE))), true)

/-- Operations of the accumulator interface, for reasoning about reachable
accumulator states. -/
inductive AccOp where
  | record (serviceId : String) (timestampMs : Nat) (ok : Bool) (latencyMs : Nat)
  | drain (hourUtcMs : Nat)
  | clear (hourUtcMs : Nat)
  | peek (serviceId : String) (hourUtcMs : Nat)

def applyOp (minuteMode : Bool) (acc : AccState) : AccOp → AccState
  | .record sid ts ok lat => recordSample minuteMode acc sid ts ok lat
  | .drain h => (getAndResetForHour acc h).2
  | .clear h => clearHour acc h
  | .peek _ _ => acc

/-- The accumulator state reached by running a sequence of operations from the
empty state. -/
def runOps (minuteMode : Bool) (ops : List AccOp) : AccState :=
  ops.foldl (applyOp minuteMode) emptyAcc

/-- Ghost history for the accumulator: one recorded sample. -/
structure GSample where
  ts : Nat
  ok : Bool
  lat : Nat
deriving DecidableEq, Repr

/-- Ghost history state: for each (service, bucket), the samples recorded
since the bucket's entry was last created (drains and clears erase it). -/
def GhostState := String → Nat → List GSample

def emptyGhost : GhostState := fun _ _ => []

def ghostOp (minuteMode : Bool) (g : GhostState) : AccOp → GhostState
  | .record sid ts ok lat => fun s h =>
      if s = sid ∧ h = hourBucketUtcMs minuteMode ts then g s h ++ [⟨ts, ok, lat⟩] else g s h
  | .drain hh => fun s h => if h = hh then [] else g s h
  | .clear hh => fun s h => if h = hh then [] else g s h
  | .peek _ _ => g

def runGhost (minuteMode : Bool) (ops : List AccOp) : GhostState :=
  ops.foldl (ghostOp minuteMode) emptyGhost

/-- An aggregate agrees with the ghost sample history of its bucket. -/
def AggMatches (samples : List GSample) (a : HourAgg) : Prop :=
  a.samples_total = samples.length ∧
  a.samples_ok = (samples.filter (fun s => s.ok)).length ∧
  a.success_latencies = (samples.filter (fun s => s.ok)).map (fun s => s.lat) ∧
  a.recent_results = (samples.map (fun s => s.ok)).drop (samples.length - 10) ∧
  a.last_check_ms = samples.getLast?.map (fun s => s.ts)

/-- Global accumulator/ghost agreement. -/
def StateInv (acc : AccState) (g : GhostState) : Prop :=
  ∀ sid h, match acc sid h with
    | none => g sid h = []
    | some a => g sid h ≠ [] ∧ AggMatches (g sid h) a

/-! ### Shared lemmas about the shard upsert -/

theorem snapLE_trans (a b c : HourSnap) (hab : snapLE a b = true) (hbc : snapLE b c = true) :
    snapLE a c = true :=
  decide_eq_true (Nat.le_trans (of_decide_eq_true hab) (of_decide_eq_true hbc))

theorem snapLE_total (a b : HourSnap) : (snapLE a b || snapLE b a) = true := by
  rcases Nat.le_total a.hour_utc_ms b.hour_utc_ms with h | h <;> simp [snapLE, h]

theorem upsertEntry_cons_hit {x : HourSnap} {xs : List HourSnap} {T p : Nat}
    (hx : (x.hour_utc_ms == T) = true) :
    upsertEntry (x :: xs) T p = ⟨T, p⟩ :: xs := by
  simp [upsertEntry, List.findIdx?_cons, hx]

theorem upsertEntry_cons_miss {x : HourSnap} {xs : List HourSnap} {T p : Nat}
    (hx : (x.hour_utc_ms == T) = false) :
    upsertEntry (x :: xs) T p = x :: upsertEntry xs T p := by
  unfold upsertEntry
  simp only [List.findIdx?_cons, hx, Bool.false_eq_true, if_false, List.findIdx?_succ]
  cases hfind : xs.findIdx? (fun item => item.hour_utc_ms == T) with
  | none => simp [hfind]
  | some i => simp [hfind, List.set_cons_succ]

theorem upsertEntry_keys_subset (xs : List HourSnap) (T p k : Nat)
    (hk : k ∈ (upsertEntry xs T p).map (fun s => s.hour_utc_ms)) :
    k = T ∨ k ∈ xs.map (fun s => s.hour_utc_ms) := by
  induction xs with
  | nil =>
    simp [upsertEntry] at hk
    exact Or.inl hk
  | cons x xs ih =>
    cases hx : (x.hour_utc_ms == T) with
    | true =>
      rw [upsertEntry_cons_hit hx] at hk
      simp only [List.map_cons, List.mem_cons] at hk ⊢
      rcases hk with h | h
      · exact Or.inl h
      · exact Or.inr (Or.inr h)
    | false =>
      rw [upsertEntry_cons_miss hx] at hk
      simp only [List.map_cons, List.mem_cons] at hk ⊢
      rcases hk with h | h
      · exact Or.inr (Or.inl h)
      · rcases ih h with h2 | h2
        · exact Or.inl h2
        · exact Or.inr (Or.inr h2)

theorem upsertEntry_nodupKeys (xs : List HourSnap) (T p : Nat)
    (h : (xs.map (fun s => s.hour_utc_ms)).Nodup) :
    ((upsertEntry xs T p).map (fun s => s.hour_utc_ms)).Nodup := by
  induction xs with
  | nil => simp [upsertEntry]
  | cons x xs ih =>
    simp only [List.map_cons, List.nodup_cons] at h
    cases hx : (x.hour_utc_ms == T) with
    | true =>
      rw [upsertEntry_cons_hit hx]
      simp only [List.map_cons, List.nodup_cons]
      have hxT : x.hour_utc_ms = T := by simpa using hx
      exact ⟨hxT ▸ h.1, h.2⟩
    | false =>
      rw [upsertEntry_cons_miss hx]
      simp only [List.map_cons, List.nodup_cons]
      refine ⟨?_, ih h.2⟩
      intro hmem
      rcases upsertEntry_keys_subset xs T p _ hmem with heq | hmem2
      · rw [heq] at hx
        simp at hx
      · exact h.1 hmem2

theorem upsertEntry_filter (xs : List HourSnap) (T p : Nat)
    (h : (xs.map (fun s => s.hour_utc_ms)).Nodup) :
    (upsertEntry xs T p).filter (fun s => s.hour_utc_ms == T) = [⟨T, p⟩] := by
  induction xs with
  | nil => simp [upsertEntry]
  | cons x xs ih =>
    simp only [List.map_cons, List.nodup_cons] at h
    cases hx : (x.hour_utc_ms == T) with
    | true =>
      rw [upsertEntry_cons_hit hx]
      have hxT : x.hour_utc_ms = T := by simpa using hx
      have hnone : xs.filter (fun s => s.hour_utc_ms == T) = [] := by
        rw [List.filter_eq_nil_iff]
        intro a ha hpa
        have haT : a.hour_utc_ms = T := by simpa using hpa
        exact h.1 (hxT ▸ haT ▸ List.mem_map_of_mem (fun s => s.hour_utc_ms) ha)
      simp [List.filter_cons, hnone]
    | false =>
      rw [upsertEntry_cons_miss hx]
      simp [List.filter_cons, hx, ih h.2]

theorem upsertShard_filter (xs : List HourSnap) (T p : Nat)
    (h : (xs.map (fun s => s.hour_utc_ms)).Nodup) :
    (upsertShard xs T p).filter (fun s => s.hour_utc_ms == T) = [⟨T, p⟩] := by
  have hperm := (List.mergeSort_perm (upsertEntry xs T p) snapLE).filter
    (fun s => s.hour_utc_ms == T)
  rw [upsertEntry_filter xs T p h] at hperm
  exact List.perm_singleton.mp hperm

theorem upsertShard_nodupKeys (xs : List HourSnap) (T p : Nat)
    (h : (xs.map (fun s => s.hour_utc_ms)).Nodup) :
    ((upsertShard xs T p).map (fun s => s.hour_utc_ms)).Nodup := by
  have hperm := (List.mergeSort_perm (upsertEntry xs T p) snapLE).map (fun s => s.hour_utc_ms)
  exact hperm.nodup_iff.mpr (upsertEntry_nodupKeys xs T p h)

theorem upsertShard_sorted (xs : List HourSnap) (T p : Nat) :
    List.Pairwise (fun a b : HourSnap => a.hour_utc_ms ≤ b.hour_utc_ms) (upsertShard xs T p) :=
  (List.sorted_mergeSort snapLE_trans snapLE_total (upsertEntry xs T p)).imp
    (fun hab => of_decide_eq_true hab)

theorem upsertShard_countP_of_mem (xs : List HourSnap) (T p : Nat)
    (hmem : T ∈ xs.map (fun s => s.hour_utc_ms)) :
    (upsertShard xs T p).countP (fun s => s.hour_utc_ms == T) =
      xs.countP (fun s => s.hour_utc_ms == T) := by
  unfold upsertShard
  rw [(List.mergeSort_perm (upsertEntry xs T p) snapLE).countP_eq]
  induction xs with
  | nil => simp at hmem
  | cons x xs ih =>
    cases hx : (x.hour_utc_ms == T) with
    | true =>
      rw [upsertEntry_cons_hit hx]
      simp [List.countP_cons, hx]
    | false =>
      rw [upsertEntry_cons_miss hx]
      have hmem2 : T ∈ xs.map (fun s => s.hour_utc_ms) := by
        simp only [List.map_cons, List.mem_cons] at hmem
        rcases hmem with h | h
        · rw [h] at hx
          simp at hx
        · exact h
      simp [List.countP_cons, hx, ih hmem2]

theorem countP_pos_mem_keys (l : List HourSnap) (T : Nat)
    (h : 0 < l.countP (fun s => s.hour_utc_ms == T)) :
    T ∈ l.map (fun s => s.hour_utc_ms) := by
  obtain ⟨a, ha, hp⟩ := List.countP_pos_iff.mp h
  have : a.hour_utc_ms = T := by simpa using hp
  exact this ▸ List.mem_map_of_mem (fun s => s.hour_utc_ms) ha

/-! ### Claim C3: poller retry discipline -/

/-- C3 counterexample: a failure by non-2xx status is not retried — the
`res.on('end')` handler records the failure sample and schedules nothing.
With a configured retry budget of 3 and every attempt completing with a
non-2xx status, the tick records exactly one failure sample, not the
`min(retries, 3) + 1 = 4` the claim's retry budget for non-2xx failures would
require. -/
theorem c3_counterexample :
    pollTickSamples 3 (fun _ => .httpFailure) = [(false, none)] ∧
    (pollTickSamples 3 (fun _ => .httpFailure)).length ≠ min 3 3 + 1 := by
  have h : pollTickSamples 3 (fun _ => AttemptResult.httpFailure) = [(false, none)] := by
    rw [pollTickSamples, runAttempt]
  refine ⟨h, ?_⟩
  rw [h]
  decide

theorem runAttempt_allConnFail (retries : Nat) (env : Nat → AttemptResult)
    (henv : ∀ k, env k = .connFailure) (a : Nat) (ha : a ≤ min retries 3 + 1) :
    runAttempt retries env a = List.replicate (min retries 3 + 2 - a) (false, none) := by
  rw [runAttempt]
  simp only [henv a]
  by_cases hc : a ≤ retries ∧ a ≤ 3
  · rw [if_pos hc, runAttempt_allConnFail retries env henv (a + 1) (by omega)]
    have he : min retries 3 + 2 - a = (min retries 3 + 2 - (a + 1)) + 1 := by omega
    rw [he, List.replicate_succ]
  · rw [if_neg hc]
    have he : min retries 3 + 2 - a = 1 := by omega
    rw [he]
    rfl
termination_by 4 - a
decreasing_by omega

/-- C3 (amended): every attempt, success or failure, records exactly one
sample.  A successful first attempt records a single success sample with no
retry; an attempt completing with a non-2xx status records a single failure
sample and the tick ends without retrying; and when every attempt fails with
a connection error or timeout, the poller performs exactly
`min(configured retries, 3)` further attempts with a fixed short backoff, so
the tick records `min(retries, 3) + 1` failure samples. -/
theorem c3_poller_retry_budget (retries : Nat) (env : Nat → AttemptResult) (lat : Nat) :
    (env 1 = .success lat → pollTickSamples retries env = [(true, some lat)]) ∧
    (env 1 = .httpFailure → pollTickSamples retries env = [(false, none)]) ∧
    ((∀ k, env k = .connFailure) →
      pollTickSamples retries env = List.replicate (min retries 3 + 1) (false, none)) := by
  refine ⟨?_, ?_, ?_⟩
  · intro h1
    rw [pollTickSamples, runAttempt, h1]
  · intro h1
    rw [pollTickSamples, runAttempt, h1]
  · intro henv
    have h := runAttempt_allConnFail retries env henv 1 (by omega)
    rw [pollTickSamples, h]
    congr 1

/-- Witness for C3 (amended): with a configured retry budget of 5 and every
attempt failing with a connection error or timeout, one tick records exactly
4 failure samples. -/
theorem c3_witness :
    pollTickSamples 5 (fun _ => .connFailure) = List.replicate 4 (false, none) := by
  have h := (c3_poller_retry_budget 5 (fun _ => .connFailure) 0).2.2 (fun _ => rfl)
  simpa using h

/-! ### Claim C5: live fast-down override -/

theorem lastTwoFailed_iff (l : List Bool) :
    lastTwoFailed l = true ↔ ∃ l', l = l' ++ [false, false] := by
  constructor
  · intro h
    unfold lastTwoFailed at h
    rcases hd : l.drop (l.length - 2) with _ | ⟨a, _ | ⟨b, _ | ⟨c, tl⟩⟩⟩
    · rw [hd] at h
      simp at h
    · rw [hd] at h
      simp at h
    · rw [hd] at h
      simp only [Bool.and_eq_true, Bool.not_eq_true'] at h
      refine ⟨l.take (l.length - 2), ?_⟩
      have htd := List.take_append_drop (l.length - 2) l
      rw [hd, h.1, h.2] at htd
      exact htd.symm
    · have hlen := congrArg List.length hd
      simp [List.length_drop] at hlen
      omega
  · rintro ⟨l', rfl⟩
    unfold lastTwoFailed
    have he : (l' ++ [false, false]).length - 2 = l'.length := by simp
    rw [he, List.drop_left]
    rfl

/-- C5: on the live read path, an open-bucket aggregate whose two most recent
recorded outcomes are both failures reports ping 0, even when the bucket holds
earlier successful samples; otherwise the live ping is 0 when there is no
successful sample and the median of the successful latencies when there is. -/
theorem c5_live_fast_down (acc : AccState) (sid : String) (bucket : Nat) (d : HourAgg)
    (hd : getCurrentHourData acc sid bucket = some d) :
    ((∃ l', d.recent_results = l' ++ [false, false]) →
      calculatePingMs (getCurrentHourData acc sid bucket) = 0) ∧
    ((¬ ∃ l', d.recent_results = l' ++ [false, false]) →
      calculatePingMs (getCurrentHourData acc sid bucket) =
        if d.samples_ok = 0 then 0 else medianRoundedMs d.success_latencies) := by
  rw [hd]
  constructor
  · intro hff
    have hlt : lastTwoFailed d.recent_results = true := (lastTwoFailed_iff _).mpr hff
    simp [calculatePingMs, hlt]
  · intro hnf
    have hlt : lastTwoFailed d.recent_results = false := by
      cases hb : lastTwoFailed d.recent_results with
      | false => rfl
      | true => exact absurd ((lastTwoFailed_iff _).mp hb) hnf
    simp [calculatePingMs, hlt]

def c5AggW : HourAgg :=
  { samples_total := 3, samples_ok := 1, success_latencies := [50]
    recent_results := [true, false, false], last_check_ms := some 2 }

def c5AccW : AccState := fun sid h => if sid = "svc1" ∧ h = 0 then some c5AggW else none

/-- Witness for C5: a live bucket with one success (latency 50) followed by
two failures reports ping 0. -/
theorem c5_witness : calculatePingMs (getCurrentHourData c5AccW "svc1" 0) = 0 := by
  have hd : getCurrentHourData c5AccW "svc1" 0 = some c5AggW := by
    simp [getCurrentHourData, c5AccW]
  exact (c5_live_fast_down c5AccW "svc1" 0 c5AggW hd).1 ⟨[true], rfl⟩

/-! ### Claim C2: upsert idempotence -/

/-- C2 counterexample: the claim quantifies over *any* shard state, but
`writeHourlySnapshot` locates the entry to replace with `findIndex`, so a
shard that already holds two entries for the same bucket keeps both: starting
from `[{0, 1}, {0, 2}]`, writing ping 50 twice and then ping 80 for bucket 0
leaves two entries for bucket 0, not exactly one. -/
theorem c2_counterexample :
    (upsertShard (upsertShard (upsertShard [⟨0, 1⟩, ⟨0, 2⟩] 0 50) 0 50) 0 80).countP
      (fun s => s.hour_utc_ms == 0) = 2 := by
  have h0 : (0 : Nat) ∈ ([⟨0, 1⟩, ⟨0, 2⟩] : List HourSnap).map (fun s => s.hour_utc_ms) := by
    simp
  have hc0 : ([⟨0, 1⟩, ⟨0, 2⟩] : List HourSnap).countP (fun s => s.hour_utc_ms == 0) = 2 := by
    simp [List.countP_cons]
  have e1 := upsertShard_countP_of_mem [⟨0, 1⟩, ⟨0, 2⟩] 0 50 h0
  rw [hc0] at e1
  have h1 : (0 : Nat) ∈ (upsertShard [⟨0, 1⟩, ⟨0, 2⟩] 0 50).map (fun s => s.hour_utc_ms) :=
    countP_pos_mem_keys _ 0 (by omega)
  have e2 := upsertShard_countP_of_mem (upsertShard [⟨0, 1⟩, ⟨0, 2⟩] 0 50) 0 50 h1
  rw [e1] at e2
  have h2 : (0 : Nat) ∈
      (upsertShard (upsertShard [⟨0, 1⟩, ⟨0, 2⟩] 0 50) 0 50).map (fun s => s.hour_utc_ms) :=
    countP_pos_mem_keys _ 0 (by omega)
  have e3 := upsertShard_countP_of_mem (upsertShard (upsertShard [⟨0, 1⟩, ⟨0, 2⟩] 0 50) 0 50) 0 80 h2
  rw [e2] at e3
  exact e3

/-- C2 (amended): for any shard state satisfying the persisted-storage
invariant (at most one entry per bucket start), writing ping `p1` then `p2`
then `p3` for bucket `T` leaves exactly one entry for `T`, carrying the last
written value; moreover every single write maps an invariant-satisfying shard
to a shard that again has distinct bucket starts and is sorted ascending by
bucket start. -/
theorem c2_upsert_idempotent (shard : List HourSnap) (T p1 p2 p3 : Nat)
    (h : (shard.map (fun s => s.hour_utc_ms)).Nodup) :
    ((upsertShard (upsertShard (upsertShard shard T p1) T p2) T p3).filter
      (fun s => s.hour_utc_ms == T) = [⟨T, p3⟩]) ∧
    (∀ (shard' : List HourSnap) (T' q : Nat),
      (shard'.map (fun s => s.hour_utc_ms)).Nodup →
      ((upsertShard shard' T' q).map (fun s => s.hour_utc_ms)).Nodup ∧
      List.Pairwise (fun a b : HourSnap => a.hour_utc_ms ≤ b.hour_utc_ms)
        (upsertShard shard' T' q)) := by
  constructor
  · have h1 := upsertShard_nodupKeys shard T p1 h
    have h2 := upsertShard_nodupKeys _ T p2 h1
    exact upsertShard_filter _ T p3 h2
  · intro shard' T' q h'
    exact ⟨upsertShard_nodupKeys shard' T' q h', upsertShard_sorted shard' T' q⟩

/-- Witness for C2 (amended): from the empty shard, writing 50, 50, 80 for
bucket 0 leaves exactly the entry `{0, 80}`. -/
theorem c2_witness :
    (upsertShard (upsertShard (upsertShard [] 0 50) 0 50) 0 80).filter
      (fun s => s.hour_utc_ms == 0) = [⟨0, 80⟩] :=
  (c2_upsert_idempotent [] 0 50 50 80 (by simp)).1

/-! ### Claim C6: scheduler double-fire guard -/

/-- C6 counterexample: the guard only compares the newly computed completed
bucket against the last finalized and the in-flight bucket, so an execution
whose computed buckets are not monotone (clock moved backwards across a
boundary) invokes the callback twice for the same bucket: firing for buckets
0, 3600000, 0 invokes finalization for bucket 0 twice. -/
theorem c6_counterexample :
    (schedRun [0, 3600000, 0]).2 = [0, 3600000, 0] ∧
    ¬ (schedRun [0, 3600000, 0]).2.Nodup := by
  constructor
  · rfl
  · intro h
    rw [show (schedRun [0, 3600000, 0]).2 = [0, 3600000, 0] from rfl] at h
    simp at h

theorem schedRunAux_cons (st : SchedState) (h : Nat) (rest : List Nat) :
    schedRunAux st (h :: rest) =
      ((schedRunAux (schedFire st h).1 rest).1,
       (if (schedFire st h).2 then [h] else []) ++ (schedRunAux (schedFire st h).1 rest).2) :=
  rfl

theorem schedRunAux_strict (fires : List Nat) : ∀ st : SchedState,
    List.Pairwise (· ≤ ·) fires →
    (∀ v h, st.lastEmitted = some v → h ∈ fires → v ≤ h) →
    (∀ v h, st.runningBoundary = some v → h ∈ fires → v ≤ h) →
    List.Pairwise (· < ·) (schedRunAux st fires).2 ∧
    (∀ v, st.lastEmitted = some v → ∀ x ∈ (schedRunAux st fires).2, v < x) ∧
    (∀ v, st.runningBoundary = some v → ∀ x ∈ (schedRunAux st fires).2, v < x) := by
  induction fires with
  | nil =>
    intro st _ _ _
    exact ⟨List.Pairwise.nil, by simp [schedRunAux], by simp [schedRunAux]⟩
  | cons h rest ih =>
    intro st hsort hlast hrun
    rw [List.pairwise_cons] at hsort
    by_cases hg : st.lastEmitted = some h ∨ st.runningBoundary = some h
    · have hfire : schedFire st h = (st, false) := by
        unfold schedFire
        rw [if_pos hg]
      have hrec := ih st hsort.2
        (fun v x hv hx => hlast v x hv (List.mem_cons_of_mem _ hx))
        (fun v x hv hx => hrun v x hv (List.mem_cons_of_mem _ hx))
      have hrw : schedRunAux st (h :: rest) = schedRunAux st rest := by
        rw [schedRunAux_cons, hfire]
        simp
      rw [hrw]
      exact hrec
    · push_neg at hg
      have hfire : schedFire st h =
          ({ lastEmitted := some h, runningBoundary := none }, true) := by
        unfold schedFire
        rw [if_neg]
        push_neg
        exact hg
      have hrec := ih { lastEmitted := some h, runningBoundary := none } hsort.2
        (fun v x hv hx => by
          injection hv with hv
          exact hv ▸ hsort.1 x hx)
        (fun v x hv _ => by simp at hv)
      have hrw : (schedRunAux st (h :: rest)).2 =
          h :: (schedRunAux { lastEmitted := some h, runningBoundary := none } rest).2 := by
        rw [schedRunAux_cons, hfire]
        rfl
      rw [hrw]
      obtain ⟨ihp, ihl, _⟩ := hrec
      refine ⟨List.Pairwise.cons (fun x hx => ihl h rfl x hx) ihp, ?_, ?_⟩
      · intro v hv x hx
        rw [List.mem_cons] at hx
        have hvh : v ≤ h := hlast v h hv (List.mem_cons_self _ _)
        have hvne : v ≠ h := by
          intro he
          exact hg.1 (he ▸ hv)
        rcases hx with rfl | hx
        · omega
        · have := ihl h rfl x hx
          omega
      · intro v hv x hx
        rw [List.mem_cons] at hx
        have hvh : v ≤ h := hrun v h hv (List.mem_cons_self _ _)
        have hvne : v ≠ h := by
          intro he
          exact hg.2 (he ▸ hv)
        rcases hx with rfl | hx
        · omega
        · have := ihl h rfl x hx
          omega

/-- C6 (amended): whenever the newly computed completed bucket equals the
last finalized bucket or the bucket currently being finalized, the firing
skips and only reschedules; and along every execution whose successively
computed completed buckets are nondecreasing (a forward-moving clock), the
finalization callback is never invoked twice for the same completed bucket. -/
theorem c6_no_double_finalize (fires : List Nat) (hmono : List.Pairwise (· ≤ ·) fires) :
    (schedRun fires).2.Nodup ∧
    (∀ (st : SchedState) (h : Nat),
      (st.lastEmitted = some h ∨ st.runningBoundary = some h) →
      schedFire st h = (st, false)) := by
  constructor
  · have hs := schedRunAux_strict fires { lastEmitted := none, runningBoundary := none }
      hmono (by simp) (by simp)
    exact hs.1.imp (fun hab => Nat.ne_of_lt hab)
  · intro st h hm
    unfold schedFire
    rw [if_pos hm]

/-- Witness for C6 (amended): over the nondecreasing firing sequence
`[0, 0, 3600000]` (a duplicate fire for bucket 0, then the next boundary) the
invoked buckets are `[0, 3600000]`, with no duplicates. -/
theorem c6_witness :
    (schedRun [0, 0, 3600000]).2 = [0, 3600000] ∧ (schedRun [0, 0, 3600000]).2.Nodup :=
  ⟨rfl, (c6_no_double_finalize [0, 0, 3600000] (by simp)).1⟩

/-! ### Claim C7: retention pruning -/

/-- C7: per shard file, pruning deletes a shard whose month ends before the
cutoff; for any surviving month it keeps exactly the entries with bucket
start at or after the cutoff, deleting the file when nothing remains; a
nonempty shard of a month starting at or after the cutoff, whose entries lie
in its month, is left untouched (no rewrite); and pruning the whole store
twice with the same cutoff equals pruning it once. -/
theorem c7_prune_retention (retentionDays nowUtcMs mIdx : Nat) (data : List HourSnap)
    (store : Store) :
    (monthStartMs (mIdx + 1) - 1 < cutoffOf retentionDays nowUtcMs →
      pruneShardAction (cutoffOf retentionDays nowUtcMs) mIdx data = .deleted) ∧
    (¬ monthStartMs (mIdx + 1) - 1 < cutoffOf retentionDays nowUtcMs →
      pruneShardContent (cutoffOf retentionDays nowUtcMs) mIdx data =
        (if data.filter (fun e => decide (cutoffOf retentionDays nowUtcMs ≤ e.hour_utc_ms)) = []
         then none
         else some (data.filter
           (fun e => decide (cutoffOf retentionDays nowUtcMs ≤ e.hour_utc_ms))))) ∧
    (cutoffOf retentionDays nowUtcMs ≤ monthStartMs mIdx → data ≠ [] →
      (∀ e ∈ data, monthStartMs mIdx ≤ e.hour_utc_ms) →
      pruneShardAction (cutoffOf retentionDays nowUtcMs) mIdx data = .untouched) ∧
    pruneRetention retentionDays nowUtcMs (pruneRetention retentionDays nowUtcMs store) =
      pruneRetention retentionDays nowUtcMs store := by
  refine ⟨?_, ?_, ?_, ?_⟩
  · intro h1
    unfold pruneShardAction
    rw [if_pos h1]
  · intro h1
    unfold pruneShardContent pruneShardAction
    rw [if_neg h1]
    by_cases h2 : data.filter (fun e => decide (cutoffOf retentionDays nowUtcMs ≤ e.hour_utc_ms)) = []
    · rw [h2]
      simp
    · have hlen : ¬ ((data.filter
          (fun e => decide (cutoffOf retentionDays nowUtcMs ≤ e.hour_utc_ms))).length = 0) := by
        simpa [List.length_eq_zero] using h2
      rw [if_neg hlen, if_neg h2]
      by_cases h3 : (data.filter
          (fun e => decide (cutoffOf retentionDays nowUtcMs ≤ e.hour_utc_ms))).length ≠ data.length
      · rw [if_pos h3]
      · rw [if_neg h3]
        push_neg at h3
        rw [List.filter_length_eq_length] at h3
        rw [List.filter_eq_self.mpr h3]
  · intro h1 h2 h3
    have hne : ¬ monthStartMs (mIdx + 1) - 1 < cutoffOf retentionDays nowUtcMs := by
      have := monthStartMs_lt_succ mIdx
      omega
    unfold pruneShardAction
    rw [if_neg hne]
    have hall : ∀ e ∈ data, (fun e => decide (cutoffOf retentionDays nowUtcMs ≤ e.hour_utc_ms)) e
        = true := by
      intro e he
      exact decide_eq_true (Nat.le_trans h1 (h3 e he))
    have hfe : data.filter (fun e => decide (cutoffOf retentionDays nowUtcMs ≤ e.hour_utc_ms))
        = data := List.filter_eq_self.mpr hall
    simp only [hfe]
    have hlen : data.length ≠ 0 := by
      simpa [List.length_eq_zero] using h2
    rw [if_neg hlen]
    simp
  · funext sid m
    unfold pruneRetention
    cases hsm : store sid m with
    | none => rfl
    | some d =>
      simp only [Option.some_bind]
      cases hact : pruneShardAction (cutoffOf retentionDays nowUtcMs) m d with
      | deleted => simp [pruneShardContent, hact]
      | untouched => simp [pruneShardContent, hact]
      | rewritten f =>
        simp only [pruneShardContent, hact, Option.some_bind]
        have hne : ¬ monthStartMs (m + 1) - 1 < cutoffOf retentionDays nowUtcMs := by
          intro hlt
          rw [pruneShardAction, if_pos hlt] at hact
          exact PruneAction.noConfusion hact
        have hf : f = d.filter (fun e => decide (cutoffOf retentionDays nowUtcMs ≤ e.hour_utc_ms))
            ∧ f.length ≠ 0 := by
          rw [pruneShardAction, if_neg hne] at hact
          by_cases h2 : (d.filter
              (fun e => decide (cutoffOf retentionDays nowUtcMs ≤ e.hour_utc_ms))).length = 0
          · rw [if_pos h2] at hact
            exact PruneAction.noConfusion hact
          · rw [if_neg h2] at hact
            by_cases h3 : (d.filter
                (fun e => decide (cutoffOf retentionDays nowUtcMs ≤ e.hour_utc_ms))).length
                ≠ d.length
            · rw [if_pos h3] at hact
              injection hact with hact
              exact ⟨hact.symm, hact ▸ h2⟩
            · rw [if_neg h3] at hact
              exact PruneAction.noConfusion hact
        have hall : ∀ e ∈ f, (fun e => decide (cutoffOf retentionDays nowUtcMs ≤ e.hour_utc_ms)) e
            = true := by
          intro e he
          rw [hf.1] at he
          exact (List.mem_filter.mp he).2
        have hff : f.filter (fun e => decide (cutoffOf retentionDays nowUtcMs ≤ e.hour_utc_ms))
            = f := List.filter_eq_self.mpr hall
        have hact2 : pruneShardAction (cutoffOf retentionDays nowUtcMs) m f = .untouched := by
          unfold pruneShardAction
          rw [if_neg hne]
          simp only [hff]
          rw [if_neg hf.2, if_neg (by intro hc; exact hc rfl)]
        rw [hact2]

/-- Witness for C7: with retention 0 days at `now = 3000000000` (early
February 1970), the cutoff is 3000000000 and the January 1970 shard (month
index 0, ending 2678399999) is deleted outright. -/
theorem c7_witness :
    pruneShardAction (cutoffOf 0 3000000000) 0 [⟨0, 5⟩] = .deleted :=
  (c7_prune_retention 0 3000000000 0 [⟨0, 5⟩] emptyStore).1 (by decide)

/-! ### Claim C9: drain semantics -/

def c9AggA : HourAgg :=
  { samples_total := 2, samples_ok := 1, success_latencies := [50]
    recent_results := [false, true], last_check_ms := some 5 }

def c9AggB : HourAgg :=
  { samples_total := 2, samples_ok := 1, success_latencies := [50]
    recent_results := [true, true], last_check_ms := some 5 }

def c9AccA : AccState := fun sid h => if sid = "svc" ∧ h = 0 then some c9AggA else none

def c9AccB : AccState := fun sid h => if sid = "svc" ∧ h = 0 then some c9AggB else none

/-- C9 counterexample: `getAndResetForHour` copies only `samples_total`,
`samples_ok` and `success_latencies` into its result, not the recent-outcome
ring or the last-check timestamp: two accumulator states whose bucket-0
aggregates differ in their recent-outcome ring drain to identical results, so
the drained value is not the full aggregate the claim describes. -/
theorem c9_counterexample :
    (getAndResetForHour c9AccA 0).1 "svc" = (getAndResetForHour c9AccB 0).1 "svc" ∧
    c9AccA "svc" 0 ≠ c9AccB "svc" 0 ∧
    c9AggA.recent_results ≠ c9AggB.recent_results := by
  refine ⟨?_, ?_, by decide⟩
  · simp [getAndResetForHour, c9AccA, c9AccB, c9AggA, c9AggB, drainCopy]
  · simp [c9AccA, c9AccB, c9AggA, c9AggB]

/-- C9 (amended): `getAndResetForHour` removes and returns, for every endpoint
with data for exactly that bucket, the aggregate's total count, success count
and successful latencies (the recent-outcome ring and last-check timestamp are
not part of the result); other buckets are untouched, and a second drain of
the same bucket returns nothing. -/
theorem c9_drain_and_reset (acc : AccState) (T : Nat) (sid : String) :
    ((getAndResetForHour acc T).1 sid = (acc sid T).map drainCopy) ∧
    ((getAndResetForHour acc T).2 sid T = none) ∧
    (∀ h, h ≠ T → (getAndResetForHour acc T).2 sid h = acc sid h) ∧
    ((getAndResetForHour ((getAndResetForHour acc T).2) T).1 sid = none) := by
  refine ⟨rfl, by simp [getAndResetForHour], ?_, by simp [getAndResetForHour]⟩
  intro h hh
  simp [getAndResetForHour, hh]

/-- Witness for C9 (amended): draining bucket 0 of a one-aggregate state
returns its three-field copy and a second drain returns nothing. -/
theorem c9_witness :
    (getAndResetForHour c9AccA 0).1 "svc" = some ⟨2, 1, [50]⟩ ∧
    (getAndResetForHour ((getAndResetForHour c9AccA 0).2) 0).1 "svc" = none := by
  have h := c9_drain_and_reset c9AccA 0 "svc"
  refine ⟨?_, h.2.2.2⟩
  rw [h.1]
  simp [c9AccA, c9AggA, drainCopy]

/-! ### Claim C10: accumulator state invariant -/

theorem stateInv_empty : StateInv emptyAcc emptyGhost := by
  intro sid h
  rfl

theorem stateInv_step (minuteMode : Bool) (acc : AccState) (g : GhostState)
    (hinv : StateInv acc g) (op : AccOp) :
    StateInv (applyOp minuteMode acc op) (ghostOp minuteMode g op) := by
  cases op with
  | peek sid0 h0 => exact hinv
  | drain hh =>
    intro sid h
    by_cases hcase : h = hh
    · simp [applyOp, getAndResetForHour, ghostOp, hcase]
    · simp only [applyOp, getAndResetForHour, ghostOp, if_neg hcase]
      exact hinv sid h
  | clear hh =>
    intro sid h
    by_cases hcase : h = hh
    · simp [applyOp, clearHour, ghostOp, hcase]
    · simp only [applyOp, clearHour, ghostOp, if_neg hcase]
      exact hinv sid h
  | record sid0 ts ok lat =>
    intro sid h
    by_cases hcase : sid = sid0 ∧ h = hourBucketUtcMs minuteMode ts
    · obtain ⟨hs, hb⟩ := hcase
      subst hs
      subst hb
      have hga := hinv sid (hourBucketUtcMs minuteMode ts)
      simp only [applyOp, recordSample, ghostOp, eq_self_iff_true, and_self, if_true]
      cases hac : acc sid (hourBucketUtcMs minuteMode ts) with
      | none =>
        rw [hac] at hga
        simp only [hac, Option.getD_none]
        rw [hga]
        refine ⟨by simp, ?_, ?_, ?_, ?_, ?_⟩
        · simp [initAgg]
        · cases ok <;> simp [initAgg]
        · cases ok <;> simp [initAgg]
        · simp [initAgg]
        · simp [initAgg]
      | some a0 =>
        rw [hac] at hga
        obtain ⟨hne, h1, h2, h3, h4, h5⟩ := hga
        simp only [hac, Option.getD_some]
        set gs := g sid (hourBucketUtcMs minuteMode ts) with hgs
        refine ⟨by simp, ?_, ?_, ?_, ?_, ?_⟩
        · simp [h1]
        · cases ok <;> simp [h2, List.filter_append, List.length_append]
        · cases ok <;> simp [h3, List.filter_append]
        · have hlen : a0.recent_results.length = gs.length - (gs.length - 10) := by
            rw [h4, List.length_drop, List.length_map]
          by_cases hn : gs.length < 10
          · have hsmall : ¬ 10 < (a0.recent_results ++ [ok]).length := by
              rw [List.length_append, hlen]
              simp only [List.length_cons, List.length_nil]
              omega
            rw [if_neg hsmall, h4]
            have e0 : gs.length - 10 = 0 := by omega
            have e1 : (gs ++ [⟨ts, ok, lat⟩] : List GSample).length - 10 = 0 := by
              rw [List.length_append]
              simp only [List.length_cons, List.length_nil]
              omega
            rw [e0, e1]
            simp
          · have hbig : 10 < (a0.recent_results ++ [ok]).length := by
              rw [List.length_append, hlen]
              simp only [List.length_cons, List.length_nil]
              omega
            rw [if_pos hbig, h4]
            have hd1 : ((gs.map (fun s => s.ok)).drop (gs.length - 10) ++ [ok]).drop 1 =
                (gs.map (fun s => s.ok)).drop (gs.length - 10 + 1) ++ [ok] := by
              rw [List.drop_append_of_le_length, List.drop_drop]
              rw [List.length_drop, List.length_map]
              omega
            rw [hd1]
            have e2 : (gs ++ [⟨ts, ok, lat⟩] : List GSample).length - 10 = gs.length - 9 := by
              rw [List.length_append]
              simp only [List.length_cons, List.length_nil]
              omega
            rw [e2]
            have hd2 : ((gs ++ [⟨ts, ok, lat⟩] : List GSample).map (fun s => s.ok)).drop
                (gs.length - 9) = (gs.map (fun s => s.ok)).drop (gs.length - 9) ++ [ok] := by
              rw [List.map_append, List.drop_append_of_le_length]
              · rfl
              · rw [List.length_map]
                omega
            rw [hd2]
            have e3 : gs.length - 10 + 1 = gs.length - 9 := by omega
            rw [e3]
        · rw [List.getLast?_concat]
          rfl
    · have hcond : ¬ (sid = sid0 ∧ h = hourBucketUtcMs minuteMode ts) := hcase
      simp only [applyOp, recordSample, ghostOp, if_neg hcond]
      exact hinv sid h

theorem stateInv_foldl (minuteMode : Bool) (ops : List AccOp) :
    ∀ (acc : AccState) (g : GhostState), StateInv acc g →
      StateInv (ops.foldl (applyOp minuteMode) acc) (ops.foldl (ghostOp minuteMode) g) := by
  induction ops with
  | nil => intro acc g hinv; exact hinv
  | cons op ops ih =>
    intro acc g hinv
    exact ih (applyOp minuteMode acc op) (ghostOp minuteMode g op)
      (stateInv_step minuteMode acc g hinv op)

theorem stateInv_runOps (minuteMode : Bool) (ops : List AccOp) :
    StateInv (runOps minuteMode ops) (runGhost minuteMode ops) :=
  stateInv_foldl minuteMode ops emptyAcc emptyGhost stateInv_empty

/-- C10: in every accumulator state reachable from the empty state by
`recordSample`, `getAndResetForHour`, `clearHour` and `getCurrentHourData`
operations, every stored aggregate has `samples_ok` equal to the number of
stored successful latencies, `samples_ok ≤ samples_total`, a recent-outcome
ring holding exactly the outcome flags of the most recent
`min(samples_total, 10)` recorded samples of its bucket in order (hence length
at most 10), and `last_check_ms` equal to the timestamp of the most recently
recorded sample for that (endpoint, bucket); the recorded-sample history is
the ghost state `runGhost`. -/
theorem c10_accumulator_invariant (minuteMode : Bool) (ops : List AccOp) (sid : String)
    (h : Nat) (a : HourAgg) (ha : runOps minuteMode ops sid h = some a) :
    a.samples_ok = a.success_latencies.length ∧
    a.samples_ok ≤ a.samples_total ∧
    a.recent_results.length = min a.samples_total 10 ∧
    a.recent_results = ((runGhost minuteMode ops sid h).map (fun s => s.ok)).drop
      ((runGhost minuteMode ops sid h).length - 10) ∧
    a.last_check_ms = (runGhost minuteMode ops sid h).getLast?.map (fun s => s.ts) := by
  have hinv := stateInv_runOps minuteMode ops sid h
  rw [ha] at hinv
  obtain ⟨hne, h1, h2, h3, h4, h5⟩ := hinv
  refine ⟨?_, ?_, ?_, h4, h5⟩
  · rw [h2, h3, List.length_map]
  · rw [h1, h2]
    exact List.length_filter_le _ _
  · rw [h4, h1, List.length_drop, List.length_map]
    omega

/-! ### Claim C1: finalization -/

/-- Well-formedness of the persistent store: every shard has at most one entry
per bucket start (the spec's persisted-storage invariant). -/
def StoreWF (store : Store) : Prop :=
  ∀ sid m, (((store sid m).getD []).map (fun s => s.hour_utc_ms)).Nodup

theorem writeHourlySnapshot_wf (store : Store) (sid0 : String) (T p : Nat)
    (h : StoreWF store) : StoreWF (writeHourlySnapshot store sid0 T p) := by
  intro sid m
  unfold writeHourlySnapshot
  by_cases hc : sid = sid0 ∧ m = msToMonthIdx T
  · rw [if_pos hc]
    simp only [Option.getD_some]
    exact upsertShard_nodupKeys _ T p (h sid0 (msToMonthIdx T))
  · rw [if_neg hc]
    exact h sid m

theorem foldl_write_preserve (rest : List ServiceCfg) (T : Nat) (pingOf : String → Nat)
    (sid0 : String) :
    ∀ store : Store, StoreWF store →
    (((store sid0 (msToMonthIdx T)).getD []).filter (fun s => s.hour_utc_ms == T)
      = [⟨T, pingOf sid0⟩]) →
    ((((rest.foldl (fun st s => writeHourlySnapshot st s.id T (pingOf s.id)) store)
      sid0 (msToMonthIdx T)).getD []).filter (fun s => s.hour_utc_ms == T)
      = [⟨T, pingOf sid0⟩]) := by
  induction rest with
  | nil =>
    intro store _ hq
    exact hq
  | cons s rest ih =>
    intro store hwf hq
    refine ih _ (writeHourlySnapshot_wf store s.id T (pingOf s.id) hwf) ?_
    by_cases hc : sid0 = s.id
    · show (((writeHourlySnapshot store s.id T (pingOf s.id)) sid0 (msToMonthIdx T)).getD
        []).filter (fun s => s.hour_utc_ms == T) = [⟨T, pingOf sid0⟩]
      unfold writeHourlySnapshot
      rw [if_pos ⟨hc, rfl⟩]
      simp only [Option.getD_some]
      rw [upsertShard_filter _ T _ (hwf s.id (msToMonthIdx T)), hc]
    · show (((writeHourlySnapshot store s.id T (pingOf s.id)) sid0 (msToMonthIdx T)).getD
        []).filter (fun s => s.hour_utc_ms == T) = [⟨T, pingOf sid0⟩]
      unfold writeHourlySnapshot
      rw [if_neg (fun hcc => hc hcc.1)]
      exact hq

theorem foldl_write_filter (services : List ServiceCfg) (T : Nat) (pingOf : String → Nat) :
    ∀ store : Store, StoreWF store →
    ∀ svc ∈ services,
      ((((services.foldl (fun st s => writeHourlySnapshot st s.id T (pingOf s.id)) store)
        svc.id (msToMonthIdx T)).getD []).filter (fun s => s.hour_utc_ms == T))
        = [⟨T, pingOf svc.id⟩] := by
  induction services with
  | nil =>
    intro store _ svc hsvc
    exact absurd hsvc (List.not_mem_nil svc)
  | cons s rest ih =>
    intro store hwf svc hsvc
    rw [List.foldl_cons]
    rcases List.mem_cons.mp hsvc with rfl | hmem
    · refine foldl_write_preserve rest T pingOf svc.id _
        (writeHourlySnapshot_wf store svc.id T (pingOf svc.id) hwf) ?_
      unfold writeHourlySnapshot
      rw [if_pos ⟨rfl, rfl⟩]
      simp only [Option.getD_some]
      exact upsertShard_filter _ T _ (hwf svc.id (msToMonthIdx T))
    · exact ih _ (writeHourlySnapshot_wf store s.id T (pingOf s.id) hwf) svc hmem

theorem snapshotPing_eq_median (acc : AccState) (T : Nat) (sid : String) :
    snapshotPingForService ((getAndResetForHour acc T).1 sid) =
      (match acc sid T with
       | none => 0
       | some a => if a.samples_ok = 0 then 0 else medianRoundedMs a.success_latencies) := by
  have hh : (getAndResetForHour acc T).1 sid = (acc sid T).map drainCopy := rfl
  rw [hh]
  cases acc sid T with
  | none => rfl
  | some a =>
    simp only [Option.map_some, snapshotPingForService]
    by_cases h : a.samples_ok = 0
    · simp [drainCopy, h]
    · simp [drainCopy, h, Nat.pos_of_ne_zero h]

/-- C1: the finalization callback drains the completed bucket from the
accumulator, then upserts, for every configured endpoint, exactly one snapshot
for that bucket whose ping is the median of the drained successful latencies
(rounded average of the two middle values for an even count, middle value for
an odd count) or 0 when the endpoint had no successful sample or no drained
data at all, and finally runs retention pruning over the store holding those
upserts.  The store is assumed to satisfy the persisted at-most-one-entry-per
-bucket invariant. -/
theorem c1_finalization (services : List ServiceCfg) (retentionDays nowUtcMs T : Nat)
    (acc : AccState) (store : Store) (hwf : StoreWF store) :
    (∀ sid, (onHourCallback services retentionDays nowUtcMs acc store T).1 sid T = none) ∧
    (∀ svc ∈ services,
      ((((services.foldl (fun st s =>
          writeHourlySnapshot st s.id T
            (snapshotPingForService ((getAndResetForHour acc T).1 s.id))) store)
        svc.id (msToMonthIdx T)).getD []).filter (fun s => s.hour_utc_ms == T))
        = [⟨T, match acc svc.id T with
               | none => 0
               | some a => if a.samples_ok = 0 then 0
                           else medianRoundedMs a.success_latencies⟩]) ∧
    ((onHourCallback services retentionDays nowUtcMs acc store T).2 =
      pruneRetention retentionDays nowUtcMs
        (services.foldl (fun st s =>
          writeHourlySnapshot st s.id T
            (snapshotPingForService ((getAndResetForHour acc T).1 s.id))) store)) := by
  refine ⟨?_, ?_, rfl⟩
  · intro sid
    simp [onHourCallback, getAndResetForHour]
  · intro svc hsvc
    have h := foldl_write_filter services T
      (fun sid => snapshotPingForService ((getAndResetForHour acc T).1 sid)) store hwf svc hsvc
    rw [h]
    simp only [snapshotPing_eq_median acc T svc.id]

/-! ### Claim C4: snapshots query bucket cap -/

/-- C4: any snapshots query whose requested bucket count
`floor((to - from) / bucketWidth) + 1` exceeds the 168-hour-equivalent cap
(168 buckets in hourly mode, 168 × 60 in minute mode) is answered with an
HTTP 400 client error, and the persistence read is never reached (the handler
returns the same error for every store, reading nothing). -/
theorem c4_snapshots_cap (minuteMode : Bool) (validIds : List String) (acc : AccState)
    (store : Store) (nowMs : Nat) (ids : List String) (fromMs toMs : Nat)
    (limitValue : Option Nat)
    (hcap : 168 * (if bucketSizeMs minuteMode = 60000 then 60 else 1) <
      (toMs - fromMs) / bucketSizeMs minuteMode + 1) :
    errStatus
      (snapshotsHandler minuteMode validIds acc store nowMs ids fromMs toMs limitValue).1 =
      some 400 ∧
    (snapshotsHandler minuteMode validIds acc store nowMs ids fromMs toMs limitValue).2 =
      false := by
  simp only [snapshotsHandler]
  by_cases h1 : toMs < fromMs
  · rw [if_pos h1]
    exact ⟨rfl, rfl⟩
  rw [if_neg h1]
  by_cases h2 : limitValue = some 0
  · rw [if_pos h2]
    exact ⟨rfl, rfl⟩
  rw [if_neg h2]
  by_cases h3 : ids.filter (fun i => !(validIds.contains i)) ≠ []
  · rw [if_pos h3]
    exact ⟨rfl, rfl⟩
  rw [if_neg h3, if_pos hcap]
  exact ⟨rfl, rfl⟩

/-- Witness for C4: in hourly mode, a query from 0 to 604800000 (169 hourly
buckets) is rejected with status 400 and no read happens. -/
theorem c4_witness :
    errStatus (snapshotsHandler false ["a"] emptyAcc emptyStore 0 ["a"] 0 604800000 none).1 =
      some 400 ∧
    (snapshotsHandler false ["a"] emptyAcc emptyStore 0 ["a"] 0 604800000 none).2 = false :=
  c4_snapshots_cap false ["a"] emptyAcc emptyStore 0 ["a"] 0 604800000 none (by decide)

/-! ### Claim C8: ranged reads -/

/-- C8: for every store, service, range and positive limit, the per-service
ranged read returns exactly the union of the snapshots of every shard whose
calendar month intersects `[from, to]`, restricted to entries with bucket
start in `[from, to]` inclusive, sorted ascending by bucket start and
truncated to the earliest `limit` entries; and the multi-service read returns
exactly that, per requested service id. -/
theorem c8_read_snapshots (store : Store) (sid : String) (ids : List String)
    (fromMs toMs l : Nat) (hl : 0 < l) :
    (readSnapshotsForService store sid fromMs toMs (some l) =
      List.take l (List.mergeSort (List.filter (inRange fromMs toMs)
        ((monthsIntersecting fromMs toMs).flatMap (fun mk => (store sid mk).getD [])))
        snapLE)) ∧
    (readSnapshots store ids fromMs toMs (some l) =
      ids.map (fun s => (s, readSnapshotsForService store s fromMs toMs (some l)))) := by
  constructor
  · simp only [readSnapshotsForService]
    rw [List.filter_flatMap, ← getMonthKeysBetween_eq_monthsIntersecting]
    by_cases hlen : l < (((getMonthKeysBetween fromMs toMs).flatMap
        (fun mk => ((store sid mk).getD []).filter (inRange fromMs toMs))).mergeSort
        snapLE).length
    · rw [if_pos ⟨Nat.pos_iff_ne_zero.mp hl, hlen⟩]
    · rw [if_neg (fun hc => hlen hc.2), List.take_of_length_le (by omega)]
  · rfl

def c1SvcW : ServiceCfg := { id := "svc1", timeout_ms := 5000, slow_threshold_ms := 1000, retries := 0 }

/-- The accumulator state of the spec's end-to-end example: bucket 0 of
service `svc1` received samples (ok, 100), (ok, 5000), (fail). -/
def c1AccW : AccState :=
  recordSample false
    (recordSample false
      (recordSample false emptyAcc "svc1" 0 true 100) "svc1" 0 true 5000) "svc1" 0 false 0

/-- Witness for C1 (the spec's end-to-end example): finalizing bucket 0 with
drained samples (ok, 100), (ok, 5000), (fail) writes exactly the snapshot
`{hour 0, ping 2550}` for `svc1`. -/
theorem c1_witness :
    ((([c1SvcW].foldl (fun st s => writeHourlySnapshot st s.id 0
        (snapshotPingForService ((getAndResetForHour c1AccW 0).1 s.id))) emptyStore)
      c1SvcW.id (msToMonthIdx 0)).getD []).filter (fun s => s.hour_utc_ms == 0)
      = [⟨0, 2550⟩] := by
  have hwf : StoreWF emptyStore := by
    intro sid m
    simp [emptyStore]
  have h := (c1_finalization [c1SvcW] 90 0 0 c1AccW emptyStore hwf).2.1 c1SvcW
    (List.mem_singleton.mpr rfl)
  rw [h]
  norm_num [c1SvcW, c1AccW, recordSample, emptyAcc, hourBucketUtcMs, bucketSizeMs, initAgg,
    medianRoundedMs, List.mergeSort, snapLE]

def c8StoreW : Store :=
  fun sid m => if sid = "a" ∧ m = 0 then some [⟨5, 7⟩, ⟨10, 3⟩] else none

/-- Witness for C8: with one January-1970 shard holding entries at 5 and 10
for service `a`, reading `[0, 7]` with limit 1 returns exactly `[{5, 7}]`. -/
theorem c8_witness :
    readSnapshotsForService c8StoreW "a" 0 7 (some 1) = [⟨5, 7⟩] := by
  rw [(c8_read_snapshots c8StoreW "a" [] 0 7 1 (by decide)).1]
  have hidx : msToMonthIdx 7 = 0 := by
    rw [msToMonthIdx, msToMonthIdxAux]
    norm_num [monthStartMs, daysInMonthIdx, isLeapYear, msPerDay]
  have hm : monthsIntersecting 0 7 = [0] := by
    rw [monthsIntersecting, hidx]
    decide
  rw [hm]
  norm_num [c8StoreW, inRange, List.mergeSort, snapLE]

/-- Witness for C10: after recording (ok, 50) then (fail) at instant 0, the
stored aggregate for bucket 0 is `{2, 1, [50], [true, false], 0}` and its
success count equals the number of stored latencies. -/
theorem c10_witness :
    runOps false [AccOp.record "s" 0 true 50, AccOp.record "s" 0 false 0] "s" 0 =
      some ⟨2, 1, [50], [true, false], some 0⟩ ∧
    (⟨2, 1, [50], [true, false], some 0⟩ : HourAgg).samples_ok =
      (⟨2, 1, [50], [true, false], some 0⟩ : HourAgg).success_latencies.length :=
  ⟨by decide,
   (c10_accumulator_invariant false [AccOp.record "s" 0 true 50, AccOp.record "s" 0 false 0]
     "s" 0 ⟨2, 1, [50], [true, false], some 0⟩ (by decide)).1⟩

end LabsPulse
